import Mathlib

/-!
Verification of the caption-enhancement repository.

The Python sources (`caption_enhancer.py`, `web_ui.py`) are shallowly embedded
below.  Python strings are modelled as `List Char` (a Python `str` is a sequence
of code points).  The case predicates and case conversions (`str.isupper`,
`str.lower`) and the whitespace set of `str.strip` / `str.split` are modelled on
their ASCII fragments, which is the fragment all the analysed behaviour lives
in; the modelling is used consistently in every definition.  The external
generative-model calls, the file system and the web framework are oracles:
their possible outcomes are explicit parameters of the embedded functions
(`Option`/`Except` values, with `none`/`.error` meaning the call raised an
exception), and blocking sleeps and outbound calls are recorded in an explicit
effect trace.  Python float division `overlap / max(len, 1) < 0.2` on the small
nonnegative integers produced here is modelled by the exact comparison
`5 * overlap < max len 1`, which agrees with the IEEE double computation on all
integer inputs of the relevant magnitude.
-/

abbrev Str := List Char

def isPySpace (c : Char) : Bool :=
  decide (c.toNat = 32 ∨ c.toNat = 9 ∨ c.toNat = 10 ∨ c.toNat = 13 ∨ c.toNat = 11 ∨ c.toNat = 12)

def isUpperCh (c : Char) : Bool := decide (65 ≤ c.toNat ∧ c.toNat ≤ 90)

def toLowerChar (c : Char) : Char :=
  if isUpperCh c = true then Char.ofNat (c.toNat + 32) else c

def lowerL (s : Str) : Str := s.map toLowerChar

def pyStrip (p : Char → Bool) (l : Str) : Str :=
  ((l.dropWhile p).reverse.dropWhile p).reverse

def pyWordsAux (cur : Str) : Str → List Str
  | [] => if cur = [] then [] else [cur.reverse]
  | c :: rest =>
    if isPySpace c = true then
      if cur = [] then pyWordsAux [] rest
      else cur.reverse :: pyWordsAux [] rest
    else pyWordsAux (c :: cur) rest

def pyWords (s : Str) : List Str := pyWordsAux [] s

def joinSpace : List Str → Str
  | [] => []
  | [w] => w
  | w :: rest => w ++ ' ' :: joinSpace rest

def containsSub (m : Str) : Str → Bool
  | [] => m.isEmpty
  | c :: rest => m.isPrefixOf (c :: rest) || containsSub m rest

def takeUntil (m : Str) : Str → Str
  | [] => []
  | c :: rest => if m.isPrefixOf (c :: rest) = true then [] else c :: takeUntil m rest

def okEnds (p : Char → Bool) (l : Str) : Prop :=
  (∀ c, l.head? = some c → p c = false) ∧ (∀ c, l.reverse.head? = some c → p c = false)

def stripQuotes (caption : Str) : Str :=
  pyStrip isPySpace
    (pyStrip (fun c => c == '\'') (pyStrip (fun c => c == '"') (pyStrip isPySpace caption)))

def prefixes_to_remove : List Str :=
  [("caption:".data), ("caption is:".data), ("the caption:".data), ("description:".data),
   ("image caption:".data), ("caption:".data), ("a simple caption:".data),
   ("ml-style caption:".data), ("resnet50 caption:".data)]

def removeCommonPrefixes (caption : Str) : Str :=
  match prefixes_to_remove.find? (fun q => q.isPrefixOf (lowerL caption)) with
  | some q => pyStrip isPySpace (caption.drop q.length)
  | none => caption

def explanation_markers : List Str :=
  [(" - ".data), (" because ".data), (" since ".data), (" as ".data),
   (" (".data), (" [".data), ("\n".data)]

def cutExplanation (caption : Str) : Str :=
  match explanation_markers.find? (fun m => containsSub m caption) with
  | some m => pyStrip isPySpace (takeUntil m caption)
  | none => caption

def fixLeadingCase (caption : Str) : Str :=
  match caption with
  | [] => []
  | c :: rest =>
    if isUpperCh c = true ∧ (pyWords (c :: rest)).length ≤ 15 then
      if rest = [] then (c :: rest).map toLowerChar else toLowerChar c :: rest
    else c :: rest

def limitWords (caption : Str) : Str :=
  if (pyWords caption).length > 18 then joinSpace ((pyWords caption).take 18) else caption

def _cleanup_caption (caption : Str) : Str :=
  if caption = [] then caption
  else pyStrip isPySpace
    (limitWords (fixLeadingCase (cutExplanation (removeCommonPrefixes (stripQuotes caption)))))

def people_words : List Str :=
  [("man".data), ("woman".data), ("person".data), ("people".data), ("crowd".data),
   ("standing".data), ("sitting".data), ("walking".data)]

def vehicle_words : List Str :=
  [("car".data), ("cars".data), ("vehicle".data), ("vehicles".data), ("street".data),
   ("road".data), ("parked".data), ("driving".data)]

def wordSetOf (s : Str) : List Str := (pyWords (lowerL s)).dedup

def overlapCount (original enhanced : Str) : Nat :=
  ((wordSetOf original).filter (fun w => (wordSetOf enhanced).contains w)).length

def _is_valid_enhancement (original enhanced : Str) : Bool :=
  if enhanced = [] ∨ pyStrip isPySpace enhanced = [] then false
  else if (people_words.any (fun w => containsSub w (lowerL original)))
      && (vehicle_words.any (fun w => containsSub w (lowerL enhanced))) then true
  else if 5 * overlapCount original enhanced < max (wordSetOf original).length 1 then false
  else true

inductive Effect where
  | sleep : Effect
  | visionCall : Effect
  | textCall : Effect
deriving DecidableEq

def _enhance_without_vision_tr (textResp : Option Str) (original : Str) :
    Option Str × List Effect :=
  match textResp with
  | none => (none, [Effect.textCall])
  | some r =>
    let e := _cleanup_caption (pyStrip isPySpace r)
    (some (if _is_valid_enhancement original e then e else original), [Effect.textCall])

def _enhance_with_vision_tr (imageOpenOk : Bool) (visionResp textResp : Option Str)
    (original : Str) : Option Str × List Effect :=
  if imageOpenOk = false then _enhance_without_vision_tr textResp original
  else
    match visionResp with
    | none =>
      let p := _enhance_without_vision_tr textResp original
      (p.1, Effect.visionCall :: p.2)
    | some r =>
      let e := _cleanup_caption (pyStrip isPySpace r)
      (some (if _is_valid_enhancement original e then e else original), [Effect.visionCall])

def enhance_caption_tr (enabled imageProvided imageOpenOk : Bool)
    (visionResp textResp : Option Str) (original : Str) : Str × List Effect :=
  if enabled = false then (original, [])
  else
    let p := if imageProvided then _enhance_with_vision_tr imageOpenOk visionResp textResp original
             else _enhance_without_vision_tr textResp original
    match p.1 with
    | none => (original, Effect.sleep :: p.2)
    | some s => (s, Effect.sleep :: p.2)

def enhance_caption (enabled imageProvided imageOpenOk : Bool)
    (visionResp textResp : Option Str) (original : Str) : Str :=
  (enhance_caption_tr enabled imageProvided imageOpenOk visionResp textResp original).1

inductive JsonResp where
  | success : Str → Str → JsonResp
  | error : Str → JsonResp

def upload_file (hasFileField : Bool) (filename : Str) (saveResult : Option Str)
    (captions : Except Str (Str × Str)) : JsonResp × Nat :=
  if hasFileField = false then (JsonResp.error ("No file uploaded".data), 400)
  else if filename = [] then (JsonResp.error ("No file selected".data), 400)
  else
    match saveResult with
    | some msg => (JsonResp.error msg, 500)
    | none =>
      match captions with
      | Except.error msg => (JsonResp.error msg, 500)
      | Except.ok oe => (JsonResp.success oe.1 oe.2, 200)

def stripOneLayerOf (q : Char) (l : Str) : Str :=
  let l1 := if l.head? = some q then l.tail else l
  if l1.getLast? = some q then l1.dropLast else l1

def stripQuotesOneLayer (caption : Str) : Str :=
  pyStrip isPySpace
    (stripOneLayerOf '\'' (stripOneLayerOf '"' (pyStrip isPySpace caption)))

def trimLeading (p : Char → Bool) : Str → Str
  | [] => []
  | c :: rest => if p c = true then trimLeading p rest else c :: rest

def trimBoth (p : Char → Bool) (l : Str) : Str :=
  (trimLeading p ((trimLeading p l).reverse)).reverse

def stripQuotesAllLayers (caption : Str) : Str :=
  trimBoth isPySpace
    (trimBoth (fun c => c == '\'') (trimBoth (fun c => c == '"') (trimBoth isPySpace caption)))

def is_valid_claimed (original enhanced : Str) : Bool :=
  if pyStrip isPySpace enhanced = [] then false
  else if (people_words.any (fun w => containsSub w (lowerL original)))
      && (vehicle_words.any (fun w => containsSub w (lowerL enhanced))) then true
  else if 5 * overlapCount original enhanced < max (pyWords original).length 1 then false
  else true

def cleanupStage (caption : Str) : Str :=
  fixLeadingCase (cutExplanation (removeCommonPrefixes (stripQuotes caption)))

/-! ### Lemmas and theorems -/

theorem toNat_toLowerChar_of_upper {c : Char} (h : isUpperCh c = true) :
    (toLowerChar c).toNat = c.toNat + 32 := by
  have hb : 65 ≤ c.toNat ∧ c.toNat ≤ 90 := by
    simpa [isUpperCh] using h
  have hv : (c.toNat + 32).isValidChar := by
    left
    omega
  rw [toLowerChar, if_pos h, Char.ofNat, dif_pos hv]
  rfl

theorem isUpperCh_toLowerChar (c : Char) : isUpperCh (toLowerChar c) = false := by
  by_cases h : isUpperCh c = true
  · have hn := toNat_toLowerChar_of_upper h
    have hb : 65 ≤ c.toNat ∧ c.toNat ≤ 90 := by
      simpa [isUpperCh] using h
    simp only [isUpperCh, decide_eq_false_iff_not]
    omega
  · rw [toLowerChar, if_neg h]
    simpa using h

theorem isPySpace_toLowerChar (c : Char) : isPySpace (toLowerChar c) = isPySpace c := by
  by_cases h : isUpperCh c = true
  · have hn := toNat_toLowerChar_of_upper h
    have hb : 65 ≤ c.toNat ∧ c.toNat ≤ 90 := by
      simpa [isUpperCh] using h
    simp only [isPySpace, decide_eq_decide]
    omega
  · rw [toLowerChar, if_neg h]

theorem dropWhile_head_false {p : Char → Bool} :
    ∀ {l : Str} {c : Char}, (l.dropWhile p).head? = some c → p c = false := by
  intro l
  induction l with
  | nil => intro c h; simp at h
  | cons a t ih =>
    intro c h
    rw [List.dropWhile_cons] at h
    by_cases hp : p a = true
    · rw [if_pos hp] at h
      exact ih h
    · rw [if_neg hp] at h
      simp at h
      rw [← h]
      simpa using hp

theorem dropWhile_dropWhile (p : Char → Bool) (l : Str) :
    (l.dropWhile p).dropWhile p = l.dropWhile p := by
  cases hd : l.dropWhile p with
  | nil => rfl
  | cons c t =>
    have hc : p c = false := dropWhile_head_false (by rw [hd]; rfl)
    rw [List.dropWhile_cons, if_neg (by simp [hc])]

theorem dropWhile_eq_self_of_head {p : Char → Bool} {l : Str}
    (h : ∀ c, l.head? = some c → p c = false) : l.dropWhile p = l := by
  cases l with
  | nil => rfl
  | cons c t =>
    rw [List.dropWhile_cons, if_neg (by simp [h c rfl])]

theorem pyStrip_eq_self_of_okEnds {p : Char → Bool} {l : Str} (h : okEnds p l) :
    pyStrip p l = l := by
  rw [pyStrip, dropWhile_eq_self_of_head h.1, dropWhile_eq_self_of_head h.2,
    List.reverse_reverse]

theorem prefix_preserves_head? {l₁ l₂ : Str} {c : Char} (h : l₁ <+: l₂)
    (hc : l₁.head? = some c) : l₂.head? = some c := by
  obtain ⟨u, hu⟩ := h
  cases l₁ with
  | nil => simp at hc
  | cons a t =>
    simp at hc
    rw [← hu, hc]
    rfl

theorem okEnds_pyStrip (p : Char → Bool) (l : Str) : okEnds p (pyStrip p l) := by
  constructor
  · intro c hc
    rw [pyStrip] at hc
    have hxr : ((l.dropWhile p).reverse.dropWhile p).reverse <+: l.dropWhile p := by
      obtain ⟨u, hu⟩ : ∃ u, u ++ (l.dropWhile p).reverse.dropWhile p = (l.dropWhile p).reverse :=
        ⟨(l.dropWhile p).reverse.takeWhile p, List.takeWhile_append_dropWhile ..⟩
      refine ⟨u.reverse, ?_⟩
      have := congrArg List.reverse hu
      simpa using this
    exact dropWhile_head_false (prefix_preserves_head? hxr hc)
  · intro c hc
    rw [pyStrip, List.reverse_reverse] at hc
    exact dropWhile_head_false hc

theorem pyStrip_pyStrip (p : Char → Bool) (l : Str) :
    pyStrip p (pyStrip p l) = pyStrip p l :=
  pyStrip_eq_self_of_okEnds (okEnds_pyStrip p l)

theorem pyStrip_nil (p : Char → Bool) : pyStrip p [] = [] := rfl

theorem mem_of_pyStrip_eq_nil {p : Char → Bool} :
    ∀ {l : Str}, l.dropWhile p = [] → ∀ c ∈ l, p c = true := by
  intro l
  induction l with
  | nil => intro _ c hc; simp at hc
  | cons a t ih =>
    intro h c hc
    rw [List.dropWhile_cons] at h
    by_cases hp : p a = true
    · rw [if_pos hp] at h
      rcases List.mem_cons.mp hc with hca | hct
      · rwa [hca]
      · exact ih h c hct
    · rw [if_neg hp] at h
      exact absurd h (by simp)

theorem pyStrip_ne_nil_of_mem {p : Char → Bool} {l : Str} {c : Char}
    (hc : c ∈ l) (hp : p c = false) : pyStrip p l ≠ [] := by
  intro h
  rw [pyStrip] at h
  have h2 : (l.dropWhile p).reverse.dropWhile p = [] := by
    have := congrArg List.reverse h
    simpa using this
  have hmem : ∀ b ∈ l.dropWhile p, p b = true := by
    intro b hb
    exact mem_of_pyStrip_eq_nil h2 b (by simpa using hb)
  have hall : ∀ b ∈ l, p b = true := by
    intro b hb
    have hsplit : l.takeWhile p ++ l.dropWhile p = l := List.takeWhile_append_dropWhile ..
    rw [← hsplit] at hb
    rcases List.mem_append.mp hb with h1 | h1
    · exact List.mem_takeWhile_imp h1
    · exact hmem b h1
  rw [hall c hc] at hp
  exact absurd hp (by simp)

theorem pyWordsAux_all_space {t : Str} (h : ∀ c ∈ t, isPySpace c = true) :
    ∀ cur : Str, pyWordsAux cur t = if cur = [] then [] else [cur.reverse] := by
  induction t with
  | nil => intro cur; rfl
  | cons c t' ih =>
    intro cur
    have hc : isPySpace c = true := h c (List.mem_cons_self ..)
    have ht' : ∀ b ∈ t', isPySpace b = true := fun b hb => h b (List.mem_cons_of_mem _ hb)
    rw [pyWordsAux, if_pos hc]
    by_cases hcur : cur = []
    · rw [if_pos hcur, ih ht' [], if_pos rfl, if_pos hcur]
    · rw [if_neg hcur, ih ht' [], if_pos rfl, if_neg hcur]

theorem pyWordsAux_append_space {t : Str} (h : ∀ c ∈ t, isPySpace c = true) :
    ∀ (l cur : Str), pyWordsAux cur (l ++ t) = pyWordsAux cur l := by
  intro l
  induction l with
  | nil =>
    intro cur
    rw [List.nil_append, pyWordsAux_all_space h cur]
    rfl
  | cons c l' ih =>
    intro cur
    rw [List.cons_append, pyWordsAux, pyWordsAux]
    by_cases hc : isPySpace c = true
    · rw [if_pos hc, if_pos hc]
      by_cases hcur : cur = []
      · rw [if_pos hcur, if_pos hcur, ih]
      · rw [if_neg hcur, if_neg hcur, ih]
    · rw [if_neg hc, if_neg hc, ih]

theorem pyWordsAux_leading_space {t : Str} (h : ∀ c ∈ t, isPySpace c = true) :
    ∀ l : Str, pyWordsAux [] (t ++ l) = pyWordsAux [] l := by
  induction t with
  | nil => intro l; rfl
  | cons c t' ih =>
    intro l
    have hc : isPySpace c = true := h c (List.mem_cons_self ..)
    have ht' : ∀ b ∈ t', isPySpace b = true := fun b hb => h b (List.mem_cons_of_mem _ hb)
    rw [List.cons_append, pyWordsAux, if_pos hc, if_pos rfl]
    exact ih ht' l

theorem pyWords_pyStrip (l : Str) : pyWords (pyStrip isPySpace l) = pyWords l := by
  have hdecomp : l.takeWhile isPySpace ++ l.dropWhile isPySpace = l :=
    List.takeWhile_append_dropWhile ..
  have hdecomp2 :
      ((l.dropWhile isPySpace).reverse.dropWhile isPySpace).reverse ++
        ((l.dropWhile isPySpace).reverse.takeWhile isPySpace).reverse =
        l.dropWhile isPySpace := by
    have h3 : (l.dropWhile isPySpace).reverse.takeWhile isPySpace ++
        (l.dropWhile isPySpace).reverse.dropWhile isPySpace =
        (l.dropWhile isPySpace).reverse := List.takeWhile_append_dropWhile ..
    calc ((l.dropWhile isPySpace).reverse.dropWhile isPySpace).reverse ++
          ((l.dropWhile isPySpace).reverse.takeWhile isPySpace).reverse
        = ((l.dropWhile isPySpace).reverse.takeWhile isPySpace ++
            (l.dropWhile isPySpace).reverse.dropWhile isPySpace).reverse :=
          (List.reverse_append ..).symm
      _ = (l.dropWhile isPySpace).reverse.reverse := by rw [h3]
      _ = l.dropWhile isPySpace := List.reverse_reverse ..
  have htk : ∀ c ∈ l.takeWhile isPySpace, isPySpace c = true := by
    intro c hc
    exact List.mem_takeWhile_imp hc
  have htk2 : ∀ c ∈ ((l.dropWhile isPySpace).reverse.takeWhile isPySpace).reverse,
      isPySpace c = true := by
    intro c hc
    exact List.mem_takeWhile_imp (List.mem_reverse.mp hc)
  calc pyWords (pyStrip isPySpace l)
      = pyWordsAux [] (pyStrip isPySpace l) := rfl
    _ = pyWordsAux [] (pyStrip isPySpace l ++
          ((l.dropWhile isPySpace).reverse.takeWhile isPySpace).reverse) :=
        (pyWordsAux_append_space htk2 _ _).symm
    _ = pyWordsAux [] (l.dropWhile isPySpace) := by rw [pyStrip, hdecomp2]
    _ = pyWordsAux [] (l.takeWhile isPySpace ++ l.dropWhile isPySpace) :=
        (pyWordsAux_leading_space htk _).symm
    _ = pyWords l := by rw [hdecomp]; rfl

theorem pyWordsAux_no_space {m : Str} (h : ∀ c ∈ m, isPySpace c = false) :
    ∀ cur : Str,
      pyWordsAux cur m = if cur.reverse ++ m = [] then [] else [cur.reverse ++ m] := by
  induction m with
  | nil =>
    intro cur
    rw [pyWordsAux]
    by_cases hcur : cur = []
    · rw [if_pos hcur, hcur]
      rfl
    · rw [if_neg hcur, List.append_nil,
        if_neg (by simpa using hcur)]
  | cons c m' ih =>
    intro cur
    have hc : isPySpace c = false := h c (List.mem_cons_self ..)
    have hm' : ∀ b ∈ m', isPySpace b = false := fun b hb => h b (List.mem_cons_of_mem _ hb)
    rw [pyWordsAux, if_neg (by simp [hc]), ih hm' (c :: cur),
      if_neg (by simp), if_neg (by simp)]
    simp

theorem pyWordsAux_word_space {w : Str} (hw : ∀ c ∈ w, isPySpace c = false) :
    ∀ (cur r : Str), cur.reverse ++ w ≠ [] →
      pyWordsAux cur (w ++ ' ' :: r) = (cur.reverse ++ w) :: pyWordsAux [] r := by
  induction w with
  | nil =>
    intro cur r hne
    rw [List.append_nil] at hne
    rw [List.nil_append, pyWordsAux, if_pos (by decide),
      if_neg (by simpa using hne), List.append_nil]
  | cons c w' ih =>
    intro cur r hne
    have hc : isPySpace c = false := hw c (List.mem_cons_self ..)
    have hw' : ∀ b ∈ w', isPySpace b = false := fun b hb => hw b (List.mem_cons_of_mem _ hb)
    rw [List.cons_append, pyWordsAux, if_neg (by simp [hc]),
      ih hw' (c :: cur) r (by simp)]
    simp

theorem pyWords_joinSpace {W : List Str}
    (h : ∀ w ∈ W, w ≠ [] ∧ ∀ c ∈ w, isPySpace c = false) :
    pyWords (joinSpace W) = W := by
  induction W with
  | nil => rfl
  | cons w W' ih =>
    cases W' with
    | nil =>
      have hw := h w (List.mem_cons_self ..)
      show pyWordsAux [] w = [w]
      rw [pyWordsAux_no_space hw.2 []]
      simp only [List.reverse_nil, List.nil_append]
      rw [if_neg (by simpa using hw.1)]
    | cons w2 W'' =>
      have hw := h w (List.mem_cons_self ..)
      have hrest : ∀ v ∈ w2 :: W'', v ≠ [] ∧ ∀ c ∈ v, isPySpace c = false :=
        fun v hv => h v (List.mem_cons_of_mem _ hv)
      show pyWordsAux [] (w ++ ' ' :: joinSpace (w2 :: W'')) = w :: w2 :: W''
      rw [pyWordsAux_word_space hw.2 [] _ (by simpa using hw.1)]
      simp only [List.reverse_nil, List.nil_append]
      exact congrArg (w :: ·) (ih hrest)

theorem pyWords_words_ok :
    ∀ (l cur : Str), (∀ c ∈ cur, isPySpace c = false) →
      ∀ w ∈ pyWordsAux cur l, w ≠ [] ∧ ∀ c ∈ w, isPySpace c = false := by
  intro l
  induction l with
  | nil =>
    intro cur hcur w hwmem
    rw [pyWordsAux] at hwmem
    by_cases hc : cur = []
    · rw [if_pos hc] at hwmem
      simp at hwmem
    · rw [if_neg hc] at hwmem
      simp at hwmem
      subst hwmem
      exact ⟨by simpa using hc, fun c hc2 => hcur c (List.mem_reverse.mp hc2)⟩
  | cons c l' ih =>
    intro cur hcur w hwmem
    rw [pyWordsAux] at hwmem
    by_cases hc : isPySpace c = true
    · rw [if_pos hc] at hwmem
      by_cases hc2 : cur = []
      · rw [if_pos hc2] at hwmem
        exact ih [] (by simp) w hwmem
      · rw [if_neg hc2] at hwmem
        rcases List.mem_cons.mp hwmem with h1 | h1
        · subst h1
          exact ⟨by simpa using hc2, fun b hb => hcur b (List.mem_reverse.mp hb)⟩
        · exact ih [] (by simp) w h1
    · rw [if_neg hc] at hwmem
      refine ih (c :: cur) ?_ w hwmem
      intro b hb
      rcases List.mem_cons.mp hb with h1 | h1
      · subst h1
        simpa using hc
      · exact hcur b h1

theorem pyWords_mem_ok {l : Str} {w : Str} (h : w ∈ pyWords l) :
    w ≠ [] ∧ ∀ c ∈ w, isPySpace c = false :=
  pyWords_words_ok l [] (by simp) w h

theorem pyWords_nil_of_all_space {l : Str} (h : ∀ c ∈ l, isPySpace c = true) :
    pyWords l = [] := by
  rw [pyWords, pyWordsAux_all_space h []]
  rfl

theorem pyWordsAux_eq_nil {l : Str} :
    ∀ {cur : Str}, pyWordsAux cur l = [] → cur = [] ∧ ∀ c ∈ l, isPySpace c = true := by
  induction l with
  | nil =>
    intro cur h
    rw [pyWordsAux] at h
    by_cases hc : cur = []
    · exact ⟨hc, by simp⟩
    · rw [if_neg hc] at h
      simp at h
  | cons a t ih =>
    intro cur h
    rw [pyWordsAux] at h
    by_cases ha : isPySpace a = true
    · rw [if_pos ha] at h
      by_cases hc : cur = []
      · rw [if_pos hc] at h
        obtain ⟨-, hall⟩ := ih h
        refine ⟨hc, ?_⟩
        intro c hmem
        rcases List.mem_cons.mp hmem with h1 | h1
        · rwa [h1]
        · exact hall c h1
      · rw [if_neg hc] at h
        simp at h
    · rw [if_neg ha] at h
      obtain ⟨hcon, -⟩ := ih h
      simp at hcon

theorem pyWords_ne_nil_of_mem {l : Str} {c : Char} (hc : c ∈ l)
    (hp : isPySpace c = false) : pyWords l ≠ [] := by
  intro h
  obtain ⟨-, hall⟩ := pyWordsAux_eq_nil h
  rw [hall c hc] at hp
  exact absurd hp (by simp)

theorem cleanup_eq_of_ne_nil {t : Str} (h : t ≠ []) :
    _cleanup_caption t = pyStrip isPySpace (limitWords (cleanupStage t)) := by
  rw [_cleanup_caption, if_neg h]
  rfl

theorem okEnds_nil (p : Char → Bool) : okEnds p [] := by
  constructor
  · intro c hc
    simp at hc
  · intro c hc
    simp at hc

theorem okEnds_removeCommonPrefixes {caption : Str} (h : okEnds isPySpace caption) :
    okEnds isPySpace (removeCommonPrefixes caption) := by
  rw [removeCommonPrefixes]
  cases hfind : prefixes_to_remove.find? (fun q => q.isPrefixOf (lowerL caption)) with
  | none => exact h
  | some q => exact okEnds_pyStrip ..

theorem okEnds_cutExplanation {caption : Str} (h : okEnds isPySpace caption) :
    okEnds isPySpace (cutExplanation caption) := by
  rw [cutExplanation]
  cases hfind : explanation_markers.find? (fun m => containsSub m caption) with
  | none => exact h
  | some m => exact okEnds_pyStrip ..

theorem head?_append_left {xs : Str} (ys : Str) {c : Char} (h : xs.head? = some c) :
    (xs ++ ys).head? = some c := by
  cases xs with
  | nil => simp at h
  | cons a t =>
    simp at h
    rw [List.cons_append]
    simpa using h

theorem fixLeadingCase_cons (c : Char) (rest : Str) :
    fixLeadingCase (c :: rest) =
      if isUpperCh c = true ∧ (pyWords (c :: rest)).length ≤ 15 then
        (if rest = [] then (c :: rest).map toLowerChar else toLowerChar c :: rest)
      else c :: rest := rfl

theorem okEnds_fixLeadingCase {l : Str} (h : okEnds isPySpace l) :
    okEnds isPySpace (fixLeadingCase l) := by
  cases l with
  | nil => exact h
  | cons c rest =>
    rw [fixLeadingCase_cons]
    by_cases hcond : isUpperCh c = true ∧ (pyWords (c :: rest)).length ≤ 15
    · rw [if_pos hcond]
      have hcws : isPySpace c = false := h.1 c rfl
      by_cases hrest : rest = []
      · rw [if_pos hrest]
        subst hrest
        constructor
        · intro b hb
          simp at hb
          rw [← hb, isPySpace_toLowerChar]
          exact hcws
        · intro b hb
          simp at hb
          rw [← hb, isPySpace_toLowerChar]
          exact hcws
      · rw [if_neg hrest]
        constructor
        · intro b hb
          simp at hb
          rw [← hb, isPySpace_toLowerChar]
          exact hcws
        · intro b hb
          have hrev : rest.reverse ≠ [] := by simpa using hrest
          cases hrr : rest.reverse with
          | nil => exact absurd hrr hrev
          | cons a s =>
            rw [List.reverse_cons, hrr] at hb
            rw [List.cons_append] at hb
            simp at hb
            apply h.2
            rw [List.reverse_cons, hrr, List.cons_append]
            simpa using hb
    · rw [if_neg hcond]
      exact h

theorem fixLeadingCase_of_wordCount_gt {l : Str} (h : 15 < (pyWords l).length) :
    fixLeadingCase l = l := by
  cases l with
  | nil => rfl
  | cons c rest =>
    rw [fixLeadingCase_cons, if_neg]
    intro hcond
    omega

theorem fixLeadingCase_idem (l : Str) : fixLeadingCase (fixLeadingCase l) = fixLeadingCase l := by
  cases l with
  | nil => rfl
  | cons c rest =>
    rw [fixLeadingCase_cons]
    by_cases hcond : isUpperCh c = true ∧ (pyWords (c :: rest)).length ≤ 15
    · rw [if_pos hcond]
      by_cases hrest : rest = []
      · rw [if_pos hrest]
        subst hrest
        rw [List.map_cons, List.map_nil, fixLeadingCase_cons, if_neg]
        intro hcond2
        have h2 := isUpperCh_toLowerChar c
        rw [hcond2.1] at h2
        exact absurd h2 (by simp)
      · rw [if_neg hrest]
        rw [fixLeadingCase_cons, if_neg]
        intro hcond2
        have h2 := isUpperCh_toLowerChar c
        rw [hcond2.1] at h2
        exact absurd h2 (by simp)
    · rw [if_neg hcond]
      rw [fixLeadingCase_cons, if_neg hcond]

theorem okEnds_cleanupStage (t : Str) : okEnds isPySpace (cleanupStage t) :=
  okEnds_fixLeadingCase (okEnds_cutExplanation (okEnds_removeCommonPrefixes (okEnds_pyStrip ..)))

theorem cleanup_wordCount_le (t : Str) : (pyWords (_cleanup_caption t)).length ≤ 18 := by
  by_cases ht : t = []
  · rw [_cleanup_caption, if_pos ht, ht]
    simp [pyWords, pyWordsAux]
  · rw [cleanup_eq_of_ne_nil ht, pyWords_pyStrip, limitWords]
    by_cases hlen : (pyWords (cleanupStage t)).length > 18
    · rw [if_pos hlen]
      have hmem : ∀ w ∈ (pyWords (cleanupStage t)).take 18,
          w ≠ [] ∧ ∀ c ∈ w, isPySpace c = false := by
        intro w hw
        exact pyWords_mem_ok (List.mem_of_mem_take hw)
      rw [pyWords_joinSpace hmem, List.length_take]
      omega
    · rw [if_neg hlen]
      omega

theorem okEnds_cleanup (t : Str) : okEnds isPySpace (_cleanup_caption t) := by
  by_cases ht : t = []
  · rw [_cleanup_caption, if_pos ht, ht]
    exact okEnds_nil _
  · rw [cleanup_eq_of_ne_nil ht]
    exact okEnds_pyStrip ..

theorem limitWords_cleanup (t : Str) : limitWords (_cleanup_caption t) = _cleanup_caption t := by
  rw [limitWords, if_neg]
  have := cleanup_wordCount_le t
  omega

theorem fixLeadingCase_cleanup (t : Str) :
    fixLeadingCase (_cleanup_caption t) = _cleanup_caption t := by
  by_cases ht : t = []
  · rw [_cleanup_caption, if_pos ht, ht]
    rfl
  · rw [cleanup_eq_of_ne_nil ht, limitWords]
    by_cases hlen : (pyWords (cleanupStage t)).length > 18
    · rw [if_pos hlen]
      apply fixLeadingCase_of_wordCount_gt
      rw [pyWords_pyStrip]
      have hmem : ∀ w ∈ (pyWords (cleanupStage t)).take 18,
          w ≠ [] ∧ ∀ c ∈ w, isPySpace c = false := by
        intro w hw
        exact pyWords_mem_ok (List.mem_of_mem_take hw)
      rw [pyWords_joinSpace hmem, List.length_take]
      omega
    · rw [if_neg hlen]
      rw [pyStrip_eq_self_of_okEnds (okEnds_cleanupStage t)]
      exact fixLeadingCase_idem _

/-! ### Shared helper theorems for the enhancement entry points -/

theorem valid_ne_nil {o e : Str} (h : _is_valid_enhancement o e = true) : e ≠ [] := by
  intro he
  rw [_is_valid_enhancement, if_pos (Or.inl he)] at h
  exact absurd h (by simp)

theorem without_vision_result {textResp : Option Str} {c s : Str}
    (hs : (_enhance_without_vision_tr textResp c).1 = some s) :
    s = c ∨ _is_valid_enhancement c s = true := by
  cases textResp with
  | none => simp [_enhance_without_vision_tr] at hs
  | some r =>
    rw [_enhance_without_vision_tr] at hs
    simp only [Option.some.injEq] at hs
    by_cases hv : _is_valid_enhancement c (_cleanup_caption (pyStrip isPySpace r)) = true
    · rw [if_pos hv] at hs
      right
      rw [← hs]
      exact hv
    · rw [if_neg hv] at hs
      left
      exact hs.symm

theorem with_vision_result {imageOpenOk : Bool} {visionResp textResp : Option Str} {c s : Str}
    (hs : (_enhance_with_vision_tr imageOpenOk visionResp textResp c).1 = some s) :
    s = c ∨ _is_valid_enhancement c s = true := by
  rw [_enhance_with_vision_tr.eq_def] at hs
  by_cases hio : imageOpenOk = false
  · rw [if_pos hio] at hs
    exact without_vision_result hs
  · rw [if_neg hio] at hs
    cases visionResp with
    | none => exact without_vision_result hs
    | some r =>
      simp only [Option.some.injEq] at hs
      by_cases hv : _is_valid_enhancement c (_cleanup_caption (pyStrip isPySpace r)) = true
      · rw [if_pos hv] at hs
        right
        rw [← hs]
        exact hv
      · rw [if_neg hv] at hs
        left
        exact hs.symm

theorem enhance_caption_cases (enabled imageProvided imageOpenOk : Bool)
    (visionResp textResp : Option Str) (c : Str) :
    enhance_caption enabled imageProvided imageOpenOk visionResp textResp c = c ∨
      _is_valid_enhancement c
        (enhance_caption enabled imageProvided imageOpenOk visionResp textResp c) = true := by
  rw [enhance_caption, enhance_caption_tr]
  by_cases he : enabled = false
  · rw [if_pos he]
    left
    rfl
  · rw [if_neg he]
    by_cases hip : imageProvided = true
    · rw [if_pos hip]
      cases hs : (_enhance_with_vision_tr imageOpenOk visionResp textResp c).1 with
      | none =>
        left
        simp only [hs]
      | some s =>
        have hres := with_vision_result hs
        simp only [hs]
        exact hres
    · rw [if_neg hip]
      cases hs : (_enhance_without_vision_tr textResp c).1 with
      | none =>
        left
        simp only [hs]
      | some s =>
        have hres := without_vision_result hs
        simp only [hs]
        exact hres

/-! ### Claim theorems -/

/-- C1 counterexample: for the empty input caption, `enhance_caption` returns
the empty string (here on the enabled, text-only path with a successful model
response: the overlap validation of an empty original rejects every candidate,
so the empty original is returned), refuting the claim that the result is
non-empty for every input. -/
theorem enhance_caption_empty_input_cex :
    enhance_caption true false true none (some ("a man is walking".data)) [] = [] := by
  decide

/-- C1 (amended): for every non-empty input caption, every image-path outcome
and every model-call outcome, `enhance_caption` returns a non-empty string. -/
theorem enhance_caption_nonempty (enabled imageProvided imageOpenOk : Bool)
    (visionResp textResp : Option Str) (c : Str) (h : c ≠ []) :
    enhance_caption enabled imageProvided imageOpenOk visionResp textResp c ≠ [] := by
  rcases enhance_caption_cases enabled imageProvided imageOpenOk visionResp textResp c with
    hc | hv
  · rw [hc]
    exact h
  · exact valid_ne_nil hv

/-- C1 witness: the amended theorem applied at a concrete non-empty caption. -/
theorem enhance_caption_nonempty_witness :
    (("a".data) ≠ ([] : Str)) ∧
      enhance_caption true false true none none ("a".data) ≠ [] :=
  ⟨by decide, enhance_caption_nonempty true false true none none ("a".data) (by decide)⟩

/-- C2: `enhance_caption` never lets a dispatch exception escape: on the
text-only path a raised model call (`textResp = none`) makes it return the
original caption, and any failure of the vision path (image open failure or a
raised vision call) makes the vision helper produce exactly the text-only
helper's result, rather than falling directly back to the original. -/
theorem enhance_caption_exception_fallback (imageOpenOk : Bool)
    (visionResp textResp : Option Str) (c : Str)
    (h : imageOpenOk = false ∨ visionResp = none) :
    enhance_caption true false imageOpenOk visionResp none c = c ∧
      (_enhance_with_vision_tr imageOpenOk visionResp textResp c).1 =
        (_enhance_without_vision_tr textResp c).1 := by
  constructor
  · simp [enhance_caption, enhance_caption_tr, _enhance_without_vision_tr]
  · rw [_enhance_with_vision_tr.eq_def]
    by_cases hio : imageOpenOk = false
    · rw [if_pos hio]
    · rw [if_neg hio]
      rcases h with h | h
      · exact absurd h hio
      · rw [h]

/-- C2 witness: the theorem applied at a concrete failing vision path. -/
theorem enhance_caption_exception_fallback_witness :
    (enhance_caption true false true none none ("a cat".data) = ("a cat".data)) ∧
      (_enhance_with_vision_tr true none (some ("a dog".data)) ("a cat".data)).1 =
        (_enhance_without_vision_tr (some ("a dog".data)) ("a cat".data)).1 :=
  enhance_caption_exception_fallback true none (some ("a dog".data)) ("a cat".data)
    (Or.inr rfl)

/-- C3: with `enhancement_enabled = false` the enhancer returns the caption
unchanged, with an empty effect trace: no sleep and no outbound call. -/
theorem enhance_caption_disabled (imageProvided imageOpenOk : Bool)
    (visionResp textResp : Option Str) (c : Str) :
    enhance_caption_tr false imageProvided imageOpenOk visionResp textResp c = (c, []) := by
  rw [enhance_caption_tr, if_pos rfl]

/-- C4 counterexample: the code divides the overlap by the number of distinct
words of the original (`len(set(original.lower().split()))`), not by its word
count.  For original `a a a a a b` (6 words, 2 distinct) and enhanced `b c`
the overlap is 1, so the code accepts (1/2 is at least 0.2) while the claimed
rule rejects (1/6 is below 0.2). -/
theorem is_valid_enhancement_denominator_cex :
    _is_valid_enhancement ("a a a a a b".data) ("b c".data) = true ∧
      is_valid_claimed ("a a a a a b".data) ("b c".data) = false := by
  constructor
  · decide
  · decide

/-- C4 (amended): `_is_valid_enhancement` accepts exactly when the enhanced
caption is non-blank and either the people-to-vehicle override fires or the
set overlap is at least a fifth of the number of distinct words of the
original. -/
theorem is_valid_enhancement_characterization (o e : Str) :
    _is_valid_enhancement o e = true ↔
      pyStrip isPySpace e ≠ [] ∧
        (((people_words.any (fun w => containsSub w (lowerL o))) = true ∧
          (vehicle_words.any (fun w => containsSub w (lowerL e))) = true) ∨
         ¬ 5 * overlapCount o e < max (wordSetOf o).length 1) := by
  rw [_is_valid_enhancement]
  by_cases h1 : e = [] ∨ pyStrip isPySpace e = []
  · rw [if_pos h1]
    constructor
    · intro hcon
      exact absurd hcon (by simp)
    · intro hx
      exfalso
      apply hx.1
      rcases h1 with h1 | h1
      · rw [h1]
        rfl
      · exact h1
  · rw [if_neg h1]
    have hne : pyStrip isPySpace e ≠ [] := fun hc => h1 (Or.inr hc)
    by_cases h2 : ((people_words.any (fun w => containsSub w (lowerL o))) &&
        (vehicle_words.any (fun w => containsSub w (lowerL e)))) = true
    · rw [if_pos h2]
      constructor
      · intro hT
        refine ⟨hne, Or.inl ?_⟩
        simpa using h2
      · intro hx
        rfl
    · rw [if_neg h2]
      by_cases h3 : 5 * overlapCount o e < max (wordSetOf o).length 1
      · rw [if_pos h3]
        constructor
        · intro hcon
          exact absurd hcon (by simp)
        · intro hx
          exfalso
          rcases hx.2 with hover | hnl
          · apply h2
            simp [hover.1, hover.2]
          · exact hnl h3
      · rw [if_neg h3]
        constructor
        · intro hT
          exact ⟨hne, Or.inr h3⟩
        · intro hx
          rfl

/-- C5 counterexample: the prefix-removal step removes only one prefix per
pass, so a caption carrying two stacked prefixes cleans differently on a
second pass. -/
theorem cleanup_caption_not_idempotent :
    _cleanup_caption (_cleanup_caption ("caption: description: x".data)) ≠
      _cleanup_caption ("caption: description: x".data) := by
  decide

/-- C5 (amended): `_cleanup_caption` is idempotent on every input whose
single-pass result is stable under the quote-stripping, prefix-removal and
marker-truncation steps; the casing, word-limit and whitespace-trim steps are
always stable on a single-pass result. -/
theorem cleanup_caption_idem_of_stable (t : Str)
    (hq : stripQuotes (_cleanup_caption t) = _cleanup_caption t)
    (hp : removeCommonPrefixes (_cleanup_caption t) = _cleanup_caption t)
    (hm : cutExplanation (_cleanup_caption t) = _cleanup_caption t) :
    _cleanup_caption (_cleanup_caption t) = _cleanup_caption t := by
  by_cases hr : _cleanup_caption t = []
  · rw [hr]
    rfl
  · rw [cleanup_eq_of_ne_nil hr, cleanupStage, hq, hp, hm, fixLeadingCase_cleanup,
      limitWords_cleanup, pyStrip_eq_self_of_okEnds (okEnds_cleanup t)]

/-- C5 witness: the amended theorem applied at a stable concrete caption. -/
theorem cleanup_caption_idem_witness :
    (stripQuotes (_cleanup_caption ("a man is walking.".data)) =
      _cleanup_caption ("a man is walking.".data)) ∧
    (removeCommonPrefixes (_cleanup_caption ("a man is walking.".data)) =
      _cleanup_caption ("a man is walking.".data)) ∧
    (cutExplanation (_cleanup_caption ("a man is walking.".data)) =
      _cleanup_caption ("a man is walking.".data)) ∧
    _cleanup_caption (_cleanup_caption ("a man is walking.".data)) =
      _cleanup_caption ("a man is walking.".data) :=
  ⟨by decide, by decide, by decide,
    cleanup_caption_idem_of_stable ("a man is walking.".data)
      (by decide) (by decide) (by decide)⟩

/-- C6: the clean-up pipeline never returns more than 18 whitespace-separated
words. -/
theorem cleanup_caption_at_most_18_words (t : Str) :
    (pyWords (_cleanup_caption t)).length ≤ 18 :=
  cleanup_wordCount_le t

/-- C7 counterexample: Python `strip` removes every leading and trailing quote
character, not a single layer; on a doubly quoted word the code and the
single-layer description disagree. -/
theorem stripQuotes_single_layer_cex :
    stripQuotes ("\"\"hi\"\"".data) ≠ stripQuotesOneLayer ("\"\"hi\"\"".data) := by
  decide

/-- Unfolding equation for `trimLeading` on a cons cell. -/
theorem trimLeading_cons (p : Char → Bool) (c : Char) (rest : Str) :
    trimLeading p (c :: rest) = if p c = true then trimLeading p rest else c :: rest := rfl

theorem trimLeading_eq_dropWhile (p : Char → Bool) : ∀ l : Str, trimLeading p l = l.dropWhile p := by
  intro l
  induction l with
  | nil => rfl
  | cons c rest ih =>
    rw [trimLeading_cons, List.dropWhile_cons]
    by_cases hp : p c = true
    · rw [if_pos hp, if_pos hp, ih]
    · rw [if_neg hp, if_neg hp]

theorem trimBoth_eq_pyStrip (p : Char → Bool) (l : Str) : trimBoth p l = pyStrip p l := by
  rw [trimBoth, trimLeading_eq_dropWhile, trimLeading_eq_dropWhile, pyStrip]

/-- C7 (amended): the first clean-up step strips whitespace and then all
layers of surrounding double quotes, then all layers of surrounding single
quotes, then whitespace again. -/
theorem stripQuotes_eq_allLayers (caption : Str) :
    stripQuotes caption = stripQuotesAllLayers caption := by
  rw [stripQuotesAllLayers, trimBoth_eq_pyStrip, trimBoth_eq_pyStrip, trimBoth_eq_pyStrip,
    trimBoth_eq_pyStrip, stripQuotes]

/-- C8 counterexample: only the first letter is lowercased, so the result
keeps the interior capitals and is not `a man is walking.`. -/
theorem cleanup_caption_example_cex :
    _cleanup_caption ("Caption: A Man Is Walking.".data) ≠ ("a man is walking.".data) := by
  decide

/-- C8 (amended): on `Caption: A Man Is Walking.` the pipeline strips the
case-insensitive prefix and, since the remainder starts with an uppercase
letter and has at most 15 words, lowercases the first letter only, returning
`a Man Is Walking.`. -/
theorem cleanup_caption_example_eval :
    _cleanup_caption ("Caption: A Man Is Walking.".data) = ("a Man Is Walking.".data) := by
  decide

/-- C9: the upload handler answers 400 with an error payload when the file
field is missing or the filename is empty, and answers 500 carrying the
exception message when staging the file or the captioning call raises. -/
theorem upload_file_error_statuses (hasFileField : Bool) (filename : Str)
    (saveResult : Option Str) (captions : Except Str (Str × Str)) :
    (hasFileField = false →
      upload_file hasFileField filename saveResult captions =
        (JsonResp.error ("No file uploaded".data), 400)) ∧
    (hasFileField = true → filename = [] →
      upload_file hasFileField filename saveResult captions =
        (JsonResp.error ("No file selected".data), 400)) ∧
    (∀ msg, hasFileField = true → filename ≠ [] → saveResult = some msg →
      upload_file hasFileField filename saveResult captions = (JsonResp.error msg, 500)) ∧
    (∀ msg, hasFileField = true → filename ≠ [] → saveResult = none →
      captions = Except.error msg →
      upload_file hasFileField filename saveResult captions = (JsonResp.error msg, 500)) := by
  refine ⟨?_, ?_, ?_, ?_⟩
  · intro h
    rw [upload_file.eq_def, if_pos h]
  · intro h hfn
    rw [upload_file.eq_def, if_neg (by simp [h]), if_pos hfn]
  · intro msg h hfn hsv
    rw [upload_file.eq_def, if_neg (by simp [h]), if_neg hfn, hsv]
  · intro msg h hfn hsv hcap
    rw [upload_file.eq_def, if_neg (by simp [h]), if_neg hfn, hsv, hcap]

/-- C9 witness: the theorem applied at one concrete request per error shape. -/
theorem upload_file_error_statuses_witness :
    (upload_file false ("x.png".data) none (Except.ok (("a".data), ("b".data))) =
      (JsonResp.error ("No file uploaded".data), 400)) ∧
    (upload_file true [] none (Except.ok (("a".data), ("b".data))) =
      (JsonResp.error ("No file selected".data), 400)) ∧
    (upload_file true ("x.png".data) (some ("disk full".data))
        (Except.ok (("a".data), ("b".data))) = (JsonResp.error ("disk full".data), 500)) ∧
    (upload_file true ("x.png".data) none (Except.error ("boom".data)) =
      (JsonResp.error ("boom".data), 500)) :=
  ⟨(upload_file_error_statuses false ("x.png".data) none
      (Except.ok (("a".data), ("b".data)))).1 rfl,
   (upload_file_error_statuses true [] none
      (Except.ok (("a".data), ("b".data)))).2.1 rfl rfl,
   (upload_file_error_statuses true ("x.png".data) (some ("disk full".data))
      (Except.ok (("a".data), ("b".data)))).2.2.1 ("disk full".data) rfl (by decide) rfl,
   (upload_file_error_statuses true ("x.png".data) none
      (Except.error ("boom".data))).2.2.2 ("boom".data) rfl (by decide) rfl rfl⟩

/-- C10: a caption with at least one non-whitespace character always
validates against itself: it is non-blank, and its word set overlaps itself
completely, so the overlap ratio is 1. -/
theorem is_valid_enhancement_refl (c : Str) (h : ∃ ch ∈ c, isPySpace ch = false) :
    _is_valid_enhancement c c = true := by
  obtain ⟨ch, hmem, hws⟩ := h
  have hc_ne : c ≠ [] := by
    rintro rfl
    simp at hmem
  have hstrip : pyStrip isPySpace c ≠ [] := pyStrip_ne_nil_of_mem hmem hws
  rw [_is_valid_enhancement, if_neg (by
    rintro (h1 | h1)
    · exact hc_ne h1
    · exact hstrip h1)]
  by_cases h2 : ((people_words.any (fun w => containsSub w (lowerL c))) &&
      (vehicle_words.any (fun w => containsSub w (lowerL c)))) = true
  · rw [if_pos h2]
  · rw [if_neg h2, if_neg]
    have hov : overlapCount c c = (wordSetOf c).length := by
      rw [overlapCount]
      rw [List.filter_eq_self.mpr]
      intro w hw
      simp [List.contains]
      exact hw
    have hwords_ne : pyWords (lowerL c) ≠ [] := by
      apply pyWords_ne_nil_of_mem (c := toLowerChar ch)
      · exact List.mem_map_of_mem _ hmem
      · rw [isPySpace_toLowerChar]
        exact hws
    have hset_ne : wordSetOf c ≠ [] := by
      rw [wordSetOf]
      intro hc2
      cases hpw : pyWords (lowerL c) with
      | nil => exact hwords_ne hpw
      | cons w ws =>
        have hmem2 : w ∈ (pyWords (lowerL c)).dedup :=
          List.mem_dedup.mpr (by rw [hpw]; exact List.mem_cons_self ..)
        rw [hc2] at hmem2
        simp at hmem2
    have hlen : 1 ≤ (wordSetOf c).length := List.length_pos.mpr hset_ne
    rw [hov]
    omega

/-- C10 witness: the theorem applied at a concrete caption. -/
theorem is_valid_enhancement_refl_witness :
    (∃ ch ∈ ("hi there".data), isPySpace ch = false) ∧
      _is_valid_enhancement ("hi there".data) ("hi there".data) = true :=
  ⟨by decide, is_valid_enhancement_refl ("hi there".data) (by decide)⟩
